import Mathlib

/-!
Verification of the weighted consistent-hashing ring
(`src/consistentHashing.ts`, class `AdvancedConsistentHashing`).

The TypeScript class holds a `Map<number, string>` (`ring`), a number
array (`sortedKeys`), a replica count, a `Map<string, number>`
(`weights`) and an injected hash function.  JavaScript `Map`s are
modelled as insertion-ordered association lists with unique keys
(`msGet`, `msSet`, `msDelete`); the hash function is immutable after
construction, so it is passed to each operation instead of being stored
in the state record.  JavaScript numbers used as weights are modelled as
`Int` (the code meets weights `≤ 0`); hash values are `Nat`.
-/

set_option maxHeartbeats 1000000
set_option linter.unusedSectionVars false

namespace ConsistentHashing

/-- Model of `Map.get`: value bound to the first (hence only) entry with key `k`. -/
def msGet {α β : Type} [DecidableEq α] (m : List (α × β)) (k : α) : Option β :=
  match m with
  | [] => none
  | (k0, v0) :: rest => if k0 = k then some v0 else msGet rest k

/-- Model of `Map.set`: update the entry in place when the key is present, else append. -/
def msSet {α β : Type} [DecidableEq α] (m : List (α × β)) (k : α) (v : β) :
    List (α × β) :=
  match m with
  | [] => [(k, v)]
  | (k0, v0) :: rest =>
      if k0 = k then (k, v) :: rest else (k0, v0) :: msSet rest k v

/-- Model of `Map.delete`: drop the first entry with key `k` (absent keys: no-op). -/
def msDelete {α β : Type} [DecidableEq α] (m : List (α × β)) (k : α) :
    List (α × β) :=
  match m with
  | [] => []
  | (k0, v0) :: rest => if k0 = k then rest else (k0, v0) :: msDelete rest k

/-- State of one `AdvancedConsistentHashing` instance. -/
structure CHState where
  ring : List (Nat × String)
  sortedKeys : List Nat
  numberOfReplicas : Int
  weights : List (String × Int)
  deriving DecidableEq, Repr

/-- The constructor: empty ring, empty key list, empty weight table. -/
def initState (numberOfReplicas : Int) : CHState :=
  { ring := [], sortedKeys := [], numberOfReplicas := numberOfReplicas,
    weights := [] }

/-- The replica key string: the node name, a colon, and the replica index. -/
def rk (node : String) (i : Nat) : String :=
  node ++ (":") ++ toString i

/-- Hash values of the replica keys `node:0 … node:(cnt-1)`. -/
def replicaHashes (hashFn : String → Nat) (node : String) (cnt : Nat) :
    List Nat :=
  (List.range cnt).map (fun i => hashFn (rk node i))

/-- Model of `addNode(node, weight)`: record the weight, insert
`numberOfReplicas * weight` replica positions (a negative or zero
product runs the loop zero times), then re-sort the key list. -/
def addNode (hashFn : String → Nat) (s : CHState) (node : String)
    (weight : Int) : CHState :=
  let cnt := (s.numberOfReplicas * weight).toNat
  let hs := replicaHashes hashFn node cnt
  { ring := hs.foldl (fun r h => msSet r h node) s.ring,
    sortedKeys := List.insertionSort (· ≤ ·) (s.sortedKeys ++ hs),
    numberOfReplicas := s.numberOfReplicas,
    weights := msSet s.weights node weight }

/-- Model of `this.weights.get(node) || 1`: JavaScript `||` takes the fallback on
`undefined` and on the falsy number `0`. -/
def effWeight (o : Option Int) : Int :=
  match o with
  | none => 1
  | some w => if w = 0 then 1 else w

/-- Model of `removeNode(node)`: recompute the replica hashes from the recorded
weight (falling back to 1), delete each from the ring map, filter every
occurrence out of the key list, and drop the weight entry. -/
def removeNode (hashFn : String → Nat) (s : CHState) (node : String) :
    CHState :=
  let cnt := (s.numberOfReplicas * effWeight (msGet s.weights node)).toNat
  let hs := replicaHashes hashFn node cnt
  { ring := hs.foldl (fun r h => msDelete r h) s.ring,
    sortedKeys :=
      hs.foldl (fun ks h => ks.filter (fun k => k ≠ h)) s.sortedKeys,
    numberOfReplicas := s.numberOfReplicas,
    weights := msDelete s.weights node }

/-- Model of `Array.prototype.findIndex`, as an `Option`-valued index of the
first element satisfying `p`. -/
def findIdxO (p : Nat → Bool) : List Nat → Option Nat
  | [] => none
  | a :: as => if p a then some 0 else (findIdxO p as).map (· + 1)

/-- The wrap-aware start index shared by `getNode` and `getNodes`:
first stored position `≥ h`, wrapping to index 0 when none exists. -/
def startIdx (h : Nat) (sk : List Nat) : Nat :=
  match findIdxO (fun k => decide (h ≤ k)) sk with
  | some i => i
  | none => 0

/-- Model of `getNode(key)`: `undefined` on an empty ring map, else the ring
binding of the stored position at the wrap-aware index (an
out-of-range index reads `undefined`, and `Map.get(undefined)` is
`undefined`). -/
def getNode (hashFn : String → Nat) (s : CHState) (key : String) :
    Option String :=
  if s.ring.length = 0 then none
  else
    match s.sortedKeys.get? (startIdx (hashFn key) s.sortedKeys) with
    | none => none
    | some k => msGet s.ring k

/-- One step of the `getNodes` while-loop per unit of fuel; `none` means
the fuel ran out before the loop guard became false.  The guard is the
source's `result.length < count && result.length < ringSize`; a node is
appended when it is truthy (a defined, non-empty string) and not yet
collected. -/
def gnLoop (ring : List (Nat × String)) (sk : List Nat) (count : Int) :
    Nat → Nat → List String → Option (List String)
  | 0, _, _ => none
  | fuel + 1, index, result =>
      if (result.length : Int) < count ∧ result.length < sk.length then
        gnLoop ring sk count fuel ((index + 1) % sk.length)
          (match
              (match sk.get? index with
               | none => none
               | some k => msGet ring k) with
           | none => result
           | some n => if n ≠ "" ∧ n ∉ result then result ++ [n] else result)
      else some result

/-- Model of `getNodes(key, count)`: empty result on an empty key list or
`count ≤ 0`, else the while-loop from the wrap-aware start index.
`some r` means the loop exited with result `r` within `fuel` steps. -/
def getNodes (hashFn : String → Nat) (s : CHState) (key : String)
    (count : Int) (fuel : Nat) : Option (List String) :=
  if s.sortedKeys.length = 0 ∨ count ≤ 0 then some []
  else
    gnLoop s.ring s.sortedKeys count fuel
      (startIdx (hashFn key) s.sortedKeys) []

/-- Modelled from the spec (§4.1 `getNode`), for comparison with the
code: "finds the smallest stored hash position ≥ `h`; if none exists,
wraps around to the smallest stored position overall.  Returns the node
bound to that position." -/
def getNodeSpec (s : CHState) (h : Nat) : Option String :=
  match (s.sortedKeys.filter (fun k => decide (h ≤ k))).min? with
  | some m => msGet s.ring m
  | none =>
      match s.sortedKeys.min? with
      | some m => msGet s.ring m
      | none => none

/-- States reachable from the constructor by any sequence of `addNode`
and `removeNode` calls against a fixed hash function. -/
inductive Reachable (hashFn : String → Nat) (replicas : Int) :
    CHState → Prop where
  | init : Reachable hashFn replicas (initState replicas)
  | add {s : CHState} (node : String) (w : Int) :
      Reachable hashFn replicas s →
      Reachable hashFn replicas (addNode hashFn s node w)
  | remove {s : CHState} (node : String) :
      Reachable hashFn replicas s →
      Reachable hashFn replicas (removeNode hashFn s node)

/-- States reachable without ever re-adding a node that is still in the
weight table (the spec calls re-adding a caller misuse, §7). -/
inductive ReachableNR (hashFn : String → Nat) (replicas : Int) :
    CHState → Prop where
  | init : ReachableNR hashFn replicas (initState replicas)
  | add {s : CHState} (node : String) (w : Int) :
      ReachableNR hashFn replicas s →
      msGet s.weights node = none →
      ReachableNR hashFn replicas (addNode hashFn s node w)
  | remove {s : CHState} (node : String) :
      ReachableNR hashFn replicas s →
      ReachableNR hashFn replicas (removeNode hashFn s node)

theorem ReachableNR.toReachable {hashFn : String → Nat} {replicas : Int}
    {s : CHState} (h : ReachableNR hashFn replicas s) :
    Reachable hashFn replicas s := by
  induction h with
  | init => exact Reachable.init
  | add node w _ _ ih => exact Reachable.add node w ih
  | remove node _ ih => exact Reachable.remove node ih

/-! ### Association-list map lemmas -/

section MapLemmas

variable {α β : Type} [DecidableEq α]

theorem msGet_msSet_self (m : List (α × β)) (k : α) (v : β) :
    msGet (msSet m k v) k = some v := by
  induction m with
  | nil => simp [msSet, msGet]
  | cons p rest ih =>
      obtain ⟨k0, v0⟩ := p
      by_cases h : k0 = k
      · simp [msSet, h, msGet]
      · simp [msSet, h, msGet, ih]

theorem msGet_msSet_ne (m : List (α × β)) {k k1 : α} (v : β) (h : k1 ≠ k) :
    msGet (msSet m k v) k1 = msGet m k1 := by
  induction m with
  | nil => simp [msSet, msGet, Ne.symm h]
  | cons p rest ih =>
      obtain ⟨k0, v0⟩ := p
      by_cases h0 : k0 = k
      · subst h0
        simp [msSet, msGet, Ne.symm h]
      · simp only [msSet, if_neg h0, msGet]
        by_cases h1 : k0 = k1 <;> simp [h1, ih]

theorem msSet_not_mem {m : List (α × β)} {k : α}
    (h : k ∉ m.map Prod.fst) (v : β) : msSet m k v = m ++ [(k, v)] := by
  induction m with
  | nil => simp [msSet]
  | cons p rest ih =>
      obtain ⟨k0, v0⟩ := p
      simp only [List.map_cons, List.mem_cons] at h
      push_neg at h
      simp [msSet, Ne.symm h.1, ih h.2]

theorem msDelete_not_mem {m : List (α × β)} {k : α}
    (h : k ∉ m.map Prod.fst) : msDelete m k = m := by
  induction m with
  | nil => simp [msDelete]
  | cons p rest ih =>
      obtain ⟨k0, v0⟩ := p
      simp only [List.map_cons, List.mem_cons] at h
      push_neg at h
      simp [msDelete, Ne.symm h.1, ih h.2]

theorem msDelete_append_left {a : List (α × β)} {k : α}
    (h : k ∉ a.map Prod.fst) (b : List (α × β)) :
    msDelete (a ++ b) k = a ++ msDelete b k := by
  induction a with
  | nil => simp
  | cons p rest ih =>
      obtain ⟨k0, v0⟩ := p
      simp only [List.map_cons, List.mem_cons] at h
      push_neg at h
      simp [msDelete, Ne.symm h.1, ih h.2]

theorem msGet_mem {m : List (α × β)} {k : α} {v : β}
    (h : msGet m k = some v) : (k, v) ∈ m := by
  induction m with
  | nil => simp [msGet] at h
  | cons p rest ih =>
      obtain ⟨k0, v0⟩ := p
      by_cases h0 : k0 = k
      · subst h0
        simp [msGet] at h
        simp [h]
      · simp [msGet, h0] at h
        exact List.mem_cons_of_mem _ (ih h)

theorem msGet_eq_none {m : List (α × β)} {k : α} :
    msGet m k = none ↔ k ∉ m.map Prod.fst := by
  induction m with
  | nil => simp [msGet]
  | cons p rest ih =>
      obtain ⟨k0, v0⟩ := p
      by_cases h0 : k0 = k
      · simp [msGet, h0]
      · rw [List.map_cons]
        simp only [msGet, if_neg h0, List.mem_cons, ih]
        constructor
        · rintro h1 (h2 | h2)
          · exact h0 h2.symm
          · exact h1 h2
        · intro h1 h2
          exact h1 (Or.inr h2)

theorem exists_msGet_of_mem_keys {m : List (α × β)} {k : α}
    (h : k ∈ m.map Prod.fst) : ∃ v, msGet m k = some v := by
  cases h1 : msGet m k with
  | none => exact absurd (msGet_eq_none.mp h1) (by simp [h])
  | some v => exact ⟨v, rfl⟩

theorem mem_msSet_weak {m : List (α × β)} {k : α} {v : β} {p : α × β}
    (h : p ∈ msSet m k v) : p ∈ m ∨ p = (k, v) := by
  induction m with
  | nil => simpa [msSet] using h
  | cons q rest ih =>
      obtain ⟨k0, v0⟩ := q
      by_cases h0 : k0 = k
      · simp only [msSet, if_pos h0] at h
        rcases List.mem_cons.mp h with h1 | h1
        · exact Or.inr h1
        · exact Or.inl (List.mem_cons_of_mem _ h1)
      · simp only [msSet, if_neg h0] at h
        rcases List.mem_cons.mp h with h1 | h1
        · exact Or.inl (by simp [h1])
        · rcases ih h1 with h2 | h2
          · exact Or.inl (List.mem_cons_of_mem _ h2)
          · exact Or.inr h2

theorem mem_keys_msSet (m : List (α × β)) (k k1 : α) (v : β) :
    k1 ∈ (msSet m k v).map Prod.fst ↔ k1 ∈ m.map Prod.fst ∨ k1 = k := by
  induction m with
  | nil => simp [msSet, eq_comm]
  | cons p rest ih =>
      obtain ⟨k0, v0⟩ := p
      by_cases h0 : k0 = k
      · subst h0
        by_cases h1 : k1 = k0 <;> simp [msSet, h1, eq_comm]
      · simp only [msSet, if_neg h0, List.map_cons, List.mem_cons, ih]
        tauto

theorem nodup_keys_msSet {m : List (α × β)} {k : α} {v : β}
    (h : (m.map Prod.fst).Nodup) : ((msSet m k v).map Prod.fst).Nodup := by
  induction m with
  | nil => simp [msSet]
  | cons p rest ih =>
      obtain ⟨k0, v0⟩ := p
      simp only [List.map_cons, List.nodup_cons] at h
      by_cases h0 : k0 = k
      · subst h0
        rw [show msSet ((k0, v0) :: rest) k0 v = (k0, v) :: rest from by
          simp [msSet]]
        rw [List.map_cons, List.nodup_cons]
        exact h
      · simp only [msSet, if_neg h0, List.map_cons, List.nodup_cons]
        refine ⟨fun hmem => ?_, ih h.2⟩
        rcases (mem_keys_msSet rest k k0 v).mp hmem with h1 | h1
        · exact h.1 h1
        · exact h0 h1

theorem msDelete_sublist (m : List (α × β)) (k : α) :
    (msDelete m k).Sublist m := by
  induction m with
  | nil => simp [msDelete]
  | cons p rest ih =>
      obtain ⟨k0, v0⟩ := p
      by_cases h0 : k0 = k
      · simp only [msDelete, if_pos h0]
        exact (List.sublist_cons_self _ _)
      · simp only [msDelete, if_neg h0]
        exact List.Sublist.cons₂ _ ih

theorem nodup_keys_msDelete {m : List (α × β)} {k : α}
    (h : (m.map Prod.fst).Nodup) : ((msDelete m k).map Prod.fst).Nodup :=
  ((msDelete_sublist m k).map Prod.fst).nodup h

theorem mem_msDelete_of_nodup {m : List (α × β)} {k : α}
    (hnd : (m.map Prod.fst).Nodup) (p : α × β) :
    p ∈ msDelete m k ↔ p ∈ m ∧ p.1 ≠ k := by
  induction m with
  | nil => simp [msDelete]
  | cons q rest ih =>
      obtain ⟨k0, v0⟩ := q
      simp only [List.map_cons, List.nodup_cons] at hnd
      by_cases h0 : k0 = k
      · subst h0
        simp only [msDelete, if_pos rfl, List.mem_cons]
        constructor
        · intro h1
          refine ⟨Or.inr h1, fun hk => ?_⟩
          exact hnd.1 (by
            have : p.1 ∈ (rest.map Prod.fst) := List.mem_map_of_mem _ h1
            rwa [hk] at this)
        · rintro ⟨h1 | h1, h2⟩
          · exact absurd (by rw [h1]) h2
          · exact h1
      · simp only [msDelete, if_neg h0, List.mem_cons, ih hnd.2]
        constructor
        · rintro (h1 | ⟨h1, h2⟩)
          · exact ⟨Or.inl h1, by simp [h1, h0]⟩
          · exact ⟨Or.inr h1, h2⟩
        · rintro ⟨h1 | h1, h2⟩
          · exact Or.inl h1
          · exact Or.inr ⟨h1, h2⟩

theorem mem_keys_msDelete {m : List (α × β)} {k : α}
    (hnd : (m.map Prod.fst).Nodup) (k1 : α) :
    k1 ∈ (msDelete m k).map Prod.fst ↔ k1 ∈ m.map Prod.fst ∧ k1 ≠ k := by
  constructor
  · intro h
    rcases List.mem_map.mp h with ⟨p, hp, hpk⟩
    rcases (mem_msDelete_of_nodup hnd p).mp hp with ⟨h1, h2⟩
    exact ⟨hpk ▸ List.mem_map_of_mem _ h1, hpk ▸ h2⟩
  · rintro ⟨h1, h2⟩
    rcases List.mem_map.mp h1 with ⟨p, hp, hpk⟩
    exact hpk ▸ List.mem_map_of_mem _
      ((mem_msDelete_of_nodup hnd p).mpr ⟨hp, hpk.symm ▸ h2⟩)

theorem msGet_msDelete_ne (m : List (α × β)) {k k1 : α} (h : k1 ≠ k) :
    msGet (msDelete m k) k1 = msGet m k1 := by
  induction m with
  | nil => simp [msDelete]
  | cons p rest ih =>
      obtain ⟨k0, v0⟩ := p
      by_cases h0 : k0 = k
      · subst h0
        simp [msDelete, msGet, Ne.symm h]
      · simp only [msDelete, if_neg h0, msGet]
        by_cases h1 : k0 = k1 <;> simp [h1, ih]

end MapLemmas

/-! ### Fold, filter, sort and find-index lemmas -/

section ListLemmas

variable {α β : Type} [DecidableEq α]

theorem foldl_msSet_fresh (v : β) :
    ∀ (hs : List α) (m : List (α × β)), hs.Nodup →
      (∀ h ∈ hs, h ∉ m.map Prod.fst) →
      hs.foldl (fun r h => msSet r h v) m = m ++ hs.map (fun h => (h, v))
  | [], m, _, _ => by simp
  | h :: hs, m, hnd, hfresh => by
      rw [List.foldl_cons,
        msSet_not_mem (hfresh h (List.mem_cons_self h hs)) v,
        foldl_msSet_fresh v hs (m ++ [(h, v)]) (List.nodup_cons.mp hnd).2]
      · simp
      · intro h1 hh1
        rw [List.map_append]
        simp only [List.mem_append, List.map_cons]
        rintro (hc | hc)
        · exact hfresh h1 (List.mem_cons_of_mem _ hh1) hc
        · simp at hc
          exact (List.nodup_cons.mp hnd).1 (hc ▸ hh1)

theorem foldl_msDelete_not_mem :
    ∀ (hs : List α) (m : List (α × β)),
      (∀ h ∈ hs, h ∉ m.map Prod.fst) →
      hs.foldl (fun r h => msDelete r h) m = m
  | [], m, _ => by simp
  | h :: hs, m, hfresh => by
      rw [List.foldl_cons, msDelete_not_mem (hfresh h (List.mem_cons_self h hs))]
      exact foldl_msDelete_not_mem hs m
        (fun h1 hh1 => hfresh h1 (List.mem_cons_of_mem _ hh1))

theorem foldl_msDelete_cancel (v : β) :
    ∀ (hs : List α) (m : List (α × β)), hs.Nodup →
      (∀ h ∈ hs, h ∉ m.map Prod.fst) →
      hs.foldl (fun r h => msDelete r h) (m ++ hs.map (fun h => (h, v))) = m
  | [], m, _, _ => by simp
  | h :: hs, m, hnd, hfresh => by
      rw [List.foldl_cons, List.map_cons,
        msDelete_append_left (hfresh h (List.mem_cons_self h hs))]
      have hdel : msDelete ((h, v) :: hs.map (fun h => (h, v))) h
          = hs.map (fun h => (h, v)) := by
        simp [msDelete]
      rw [hdel]
      exact foldl_msDelete_cancel v hs m (List.nodup_cons.mp hnd).2
        (fun h1 hh1 => hfresh h1 (List.mem_cons_of_mem _ hh1))

/-- Deleting keys one at a time keeps exactly the entries whose key is
not among the deleted ones (given unique keys). -/
theorem mem_foldl_msDelete :
    ∀ (hs : List α) (m : List (α × β)), (m.map Prod.fst).Nodup →
      ∀ p : α × β,
        (p ∈ hs.foldl (fun r h => msDelete r h) m ↔ p ∈ m ∧ p.1 ∉ hs)
  | [], m, _, p => by simp
  | h :: hs, m, hnd, p => by
      rw [List.foldl_cons]
      rw [mem_foldl_msDelete hs (msDelete m h) (nodup_keys_msDelete hnd) p,
        mem_msDelete_of_nodup hnd p]
      simp only [List.mem_cons]
      tauto

theorem nodup_keys_foldl_msDelete :
    ∀ (hs : List α) (m : List (α × β)), (m.map Prod.fst).Nodup →
      (((hs.foldl (fun r h => msDelete r h) m).map Prod.fst)).Nodup
  | [], m, hnd => hnd
  | h :: hs, m, hnd => by
      rw [List.foldl_cons]
      exact nodup_keys_foldl_msDelete hs _ (nodup_keys_msDelete hnd)

theorem nodup_keys_foldl_msSet (v : β) :
    ∀ (hs : List α) (m : List (α × β)), (m.map Prod.fst).Nodup →
      (((hs.foldl (fun r h => msSet r h v) m).map Prod.fst)).Nodup
  | [], m, hnd => hnd
  | h :: hs, m, hnd => by
      rw [List.foldl_cons]
      exact nodup_keys_foldl_msSet v hs _ (nodup_keys_msSet hnd)

theorem mem_keys_foldl_msSet (v : β) :
    ∀ (hs : List α) (m : List (α × β)) (k : α),
      (k ∈ (hs.foldl (fun r h => msSet r h v) m).map Prod.fst ↔
        k ∈ m.map Prod.fst ∨ k ∈ hs)
  | [], m, k => by simp
  | h :: hs, m, k => by
      rw [List.foldl_cons, mem_keys_foldl_msSet v hs _ k, mem_keys_msSet]
      simp only [List.mem_cons]
      tauto

theorem mem_foldl_msSet_weak (v : β) :
    ∀ (hs : List α) (m : List (α × β)) (p : α × β),
      p ∈ hs.foldl (fun r h => msSet r h v) m → p ∈ m ∨ (p.2 = v ∧ p.1 ∈ hs)
  | [], m, p, hp => Or.inl hp
  | h :: hs, m, p, hp => by
      rw [List.foldl_cons] at hp
      rcases mem_foldl_msSet_weak v hs _ p hp with h1 | h1
      · rcases mem_msSet_weak h1 with h2 | h2
        · exact Or.inl h2
        · exact Or.inr (by simp [h2])
      · exact Or.inr ⟨h1.1, List.mem_cons_of_mem _ h1.2⟩

/-- Sequential `filter (≠ h)` passes over a list remove exactly the
elements listed in `hs`. -/
theorem foldl_filter_ne :
    ∀ (hs : List α) (l : List α),
      hs.foldl (fun ks h => ks.filter (fun k => k ≠ h)) l
        = l.filter (fun k => decide (k ∉ hs))
  | [], l => by simp
  | h :: hs, l => by
      rw [List.foldl_cons, foldl_filter_ne hs (l.filter (fun k => k ≠ h)),
        List.filter_filter]
      apply List.filter_congr
      intro x _
      by_cases h1 : x = h <;> by_cases h2 : x ∈ hs <;>
        simp [h1, h2, List.mem_cons]

theorem foldl_min_eq_self {a : α} [LinearOrder α] :
    ∀ (l : List α), (∀ x ∈ l, a ≤ x) → l.foldl min a = a
  | [], _ => rfl
  | x :: l, hle => by
      rw [List.foldl_cons, min_eq_left (hle x (List.mem_cons_self x l))]
      exact foldl_min_eq_self l (fun y hy => hle y (List.mem_cons_of_mem _ hy))

theorem min?_eq_head_of_sorted {l : List Nat}
    (hs : List.Sorted (· ≤ ·) l) : l.min? = l.head? := by
  cases l with
  | nil => rfl
  | cons a l =>
      simp only [List.min?, List.head?]
      rw [foldl_min_eq_self l (List.rel_of_sorted_cons hs)]

theorem insertionSort_eq_self {l : List Nat}
    (hs : List.Sorted (· ≤ ·) l) : List.insertionSort (· ≤ ·) l = l :=
  List.eq_of_perm_of_sorted (List.perm_insertionSort _ l)
    (List.sorted_insertionSort _ l) hs

theorem findIdxO_eq_none {p : Nat → Bool} :
    ∀ {l : List Nat}, (findIdxO p l = none ↔ ∀ x ∈ l, p x = false)
  | [] => by simp [findIdxO]
  | a :: l => by
      by_cases ha : p a
      · simp [findIdxO, ha]
      · simp only [findIdxO, if_neg ha, Option.map_eq_none']
        rw [findIdxO_eq_none]
        simp only [List.mem_cons]
        constructor
        · rintro h x (hx | hx)
          · subst hx
            exact Bool.eq_false_iff.mpr ha
          · exact h x hx
        · intro h x hx
          exact h x (Or.inr hx)

theorem findIdxO_lt_length {p : Nat → Bool} :
    ∀ {l : List Nat} {i : Nat}, findIdxO p l = some i → i < l.length
  | [], i, h => by simp [findIdxO] at h
  | a :: l, i, h => by
      by_cases ha : p a
      · simp [findIdxO, ha] at h
        simp [← h]
      · simp only [findIdxO, if_neg ha, Option.map_eq_some'] at h
        rcases h with ⟨j, hj, hji⟩
        have := findIdxO_lt_length hj
        simp [← hji, List.length_cons]
        omega

theorem findIdxO_get {p : Nat → Bool} :
    ∀ {l : List Nat} {i : Nat}, findIdxO p l = some i →
      l.get? i = (l.filter p).head?
  | [], i, h => by simp [findIdxO] at h
  | a :: l, i, h => by
      by_cases ha : p a
      · simp [findIdxO, ha] at h
        simp [← h, List.filter_cons, ha]
      · simp only [findIdxO, if_neg ha, Option.map_eq_some'] at h
        rcases h with ⟨j, hj, hji⟩
        rw [← hji]
        rw [List.filter_cons_of_neg (by simp [ha])]
        simpa using findIdxO_get hj

theorem nodup_subset_length {l1 l2 : List α} (hnd : l1.Nodup)
    (hsub : ∀ x ∈ l1, x ∈ l2) : l1.length ≤ l2.length := by
  calc l1.length = l1.toFinset.card := (List.toFinset_card_of_nodup hnd).symm
    _ ≤ l2.toFinset.card := by
        apply Finset.card_le_card
        intro x hx
        rw [List.mem_toFinset] at hx ⊢
        exact hsub x hx
    _ ≤ l2.length := List.toFinset_card_le l2

end ListLemmas

theorem mem_keys_foldl_msDelete {α β : Type} [DecidableEq α]
    (hs : List α) (m : List (α × β)) (hnd : (m.map Prod.fst).Nodup)
    (k : α) :
    k ∈ (hs.foldl (fun r h => msDelete r h) m).map Prod.fst ↔
      k ∈ m.map Prod.fst ∧ k ∉ hs := by
  constructor
  · intro h
    rcases List.mem_map.mp h with ⟨p, hp, hpk⟩
    rcases (mem_foldl_msDelete hs m hnd p).mp hp with ⟨h1, h2⟩
    exact ⟨hpk ▸ List.mem_map_of_mem _ h1, hpk ▸ h2⟩
  · rintro ⟨h1, h2⟩
    rcases List.mem_map.mp h1 with ⟨p, hp, hpk⟩
    exact hpk ▸ List.mem_map_of_mem _
      ((mem_foldl_msDelete hs m hnd p).mpr ⟨hp, hpk.symm ▸ h2⟩)

theorem mem_replicaHashes {hashFn : String → Nat} {node : String}
    {cnt : Nat} {h : Nat} :
    h ∈ replicaHashes hashFn node cnt ↔
      ∃ i, i < cnt ∧ h = hashFn (rk node i) := by
  simp only [replicaHashes, List.mem_map, List.mem_range]
  constructor
  · rintro ⟨i, hi, hh⟩
    exact ⟨i, hi, hh.symm⟩
  · rintro ⟨i, hi, hh⟩
    exact ⟨i, hi, hh.symm⟩

/-! ### Component equations for the two mutators -/

theorem addNode_ring (hashFn : String → Nat) (s : CHState) (node : String)
    (w : Int) :
    (addNode hashFn s node w).ring =
      (replicaHashes hashFn node ((s.numberOfReplicas * w).toNat)).foldl
        (fun r h => msSet r h node) s.ring := rfl

theorem addNode_sortedKeys (hashFn : String → Nat) (s : CHState)
    (node : String) (w : Int) :
    (addNode hashFn s node w).sortedKeys =
      List.insertionSort (· ≤ ·) (s.sortedKeys ++
        replicaHashes hashFn node ((s.numberOfReplicas * w).toNat)) := rfl

theorem addNode_weights (hashFn : String → Nat) (s : CHState)
    (node : String) (w : Int) :
    (addNode hashFn s node w).weights = msSet s.weights node w := rfl

theorem addNode_replicas (hashFn : String → Nat) (s : CHState)
    (node : String) (w : Int) :
    (addNode hashFn s node w).numberOfReplicas = s.numberOfReplicas := rfl

theorem removeNode_ring (hashFn : String → Nat) (s : CHState)
    (node : String) :
    (removeNode hashFn s node).ring =
      (replicaHashes hashFn node
          ((s.numberOfReplicas * effWeight (msGet s.weights node)).toNat)).foldl
        (fun r h => msDelete r h) s.ring := rfl

theorem removeNode_sortedKeys (hashFn : String → Nat) (s : CHState)
    (node : String) :
    (removeNode hashFn s node).sortedKeys =
      (replicaHashes hashFn node
          ((s.numberOfReplicas * effWeight (msGet s.weights node)).toNat)).foldl
        (fun ks h => ks.filter (fun k => k ≠ h)) s.sortedKeys := rfl

theorem removeNode_weights (hashFn : String → Nat) (s : CHState)
    (node : String) :
    (removeNode hashFn s node).weights = msDelete s.weights node := rfl

theorem removeNode_replicas (hashFn : String → Nat) (s : CHState)
    (node : String) :
    (removeNode hashFn s node).numberOfReplicas = s.numberOfReplicas := rfl

/-! ### Invariants of reachable states -/

theorem reach_replicas {hashFn : String → Nat} {replicas : Int}
    {s : CHState} (h : Reachable hashFn replicas s) :
    s.numberOfReplicas = replicas := by
  induction h with
  | init => rfl
  | add node w _ ih => exact ih
  | remove node _ ih => exact ih

theorem reach_sorted {hashFn : String → Nat} {replicas : Int}
    {s : CHState} (h : Reachable hashFn replicas s) :
    List.Sorted (· ≤ ·) s.sortedKeys := by
  induction h with
  | init => exact List.sorted_nil
  | add node w _ _ =>
      rw [addNode_sortedKeys]
      exact List.sorted_insertionSort _ _
  | @remove s node _ ih =>
      rw [removeNode_sortedKeys, foldl_filter_ne]
      exact ih.filter _

theorem reach_ring_keys_nodup {hashFn : String → Nat} {replicas : Int}
    {s : CHState} (h : Reachable hashFn replicas s) :
    (s.ring.map Prod.fst).Nodup := by
  induction h with
  | init => exact List.nodup_nil
  | @add s node w _ ih =>
      rw [addNode_ring]
      exact nodup_keys_foldl_msSet node _ _ ih
  | @remove s node _ ih =>
      rw [removeNode_ring]
      exact nodup_keys_foldl_msDelete _ _ ih

theorem reach_weights_keys_nodup {hashFn : String → Nat} {replicas : Int}
    {s : CHState} (h : Reachable hashFn replicas s) :
    (s.weights.map Prod.fst).Nodup := by
  induction h with
  | init => exact List.nodup_nil
  | add node w _ ih => exact nodup_keys_msSet ih
  | remove node _ ih => exact nodup_keys_msDelete ih

/-- The sorted key list and the ring map always hold the same set of
hash positions. -/
theorem reach_corr {hashFn : String → Nat} {replicas : Int}
    {s : CHState} (h : Reachable hashFn replicas s) :
    ∀ k : Nat, k ∈ s.sortedKeys ↔ k ∈ s.ring.map Prod.fst := by
  induction h with
  | init => intro k; simp [initState]
  | @add s node w _ ih =>
      intro k
      rw [addNode_sortedKeys, addNode_ring,
        (List.perm_insertionSort (· ≤ ·) _).mem_iff, List.mem_append,
        mem_keys_foldl_msSet node _ _ k, ih k]
  | @remove s node hr ih =>
      intro k
      rw [removeNode_sortedKeys, removeNode_ring, foldl_filter_ne,
        List.mem_filter,
        mem_keys_foldl_msDelete _ _ (reach_ring_keys_nodup hr) k, ih k]
      simp

/-- Under no-re-add reachability every ring binding points to a node
still recorded in the weight table, at one of its own replica hashes. -/
theorem reachNR_ring_values {hashFn : String → Nat} {replicas : Int}
    {s : CHState} (h : ReachableNR hashFn replicas s) :
    ∀ p ∈ s.ring, ∃ w, msGet s.weights p.2 = some w ∧
      ∃ i, i < (s.numberOfReplicas * w).toNat ∧ p.1 = hashFn (rk p.2 i) := by
  induction h with
  | init => intro p hp; simp [initState] at hp
  | @add s node w hr hfresh ih =>
      intro p hp
      rw [addNode_ring] at hp
      rw [addNode_weights, addNode_replicas]
      rcases mem_foldl_msSet_weak node _ _ p hp with h1 | h1
      · rcases ih p h1 with ⟨w0, hw0, i, hi, hhash⟩
        have hne : p.2 ≠ node := by
          intro he
          rw [he, hfresh] at hw0
          exact Option.noConfusion hw0
        exact ⟨w0, by rwa [msGet_msSet_ne _ _ hne], i, hi, hhash⟩
      · rcases h1 with ⟨hpn, hmem⟩
        rcases mem_replicaHashes.mp hmem with ⟨i, hi, hh⟩
        refine ⟨w, ?_, i, hi, ?_⟩
        · rw [hpn, msGet_msSet_self]
        · rw [hpn]
          exact hh
  | @remove s node hr ih =>
      intro p hp
      rw [removeNode_ring] at hp
      rw [removeNode_weights, removeNode_replicas]
      have hnd : (s.ring.map Prod.fst).Nodup :=
        reach_ring_keys_nodup hr.toReachable
      rcases (mem_foldl_msDelete _ _ hnd p).mp hp with ⟨h1, h2⟩
      rcases ih p h1 with ⟨w0, hw0, i, hi, hhash⟩
      by_cases hne : p.2 = node
      · exfalso
        rw [hne] at hw0
        have heff : effWeight (msGet s.weights node) = w0 := by
          rw [hw0]
          show (if w0 = 0 then 1 else w0) = w0
          by_cases h0 : w0 = 0
          · subst h0
            simp at hi
          · rw [if_neg h0]
        apply h2
        apply mem_replicaHashes.mpr
        refine ⟨i, ?_, hne ▸ hhash⟩
        rw [heff]
        exact hi
      · refine ⟨w0, ?_, i, hi, hhash⟩
        rwa [msGet_msDelete_ne _ hne]

/-- On any reachable state with stored positions, `getNode` computes the
spec's description: the binding of the smallest stored position `≥ h`,
wrapping to the smallest stored position when none exists. -/
theorem getNode_eq_getNodeSpec {hashFn : String → Nat} {replicas : Int}
    {s : CHState} (hr : Reachable hashFn replicas s)
    (hne : s.sortedKeys ≠ []) (key : String) :
    getNode hashFn s key = getNodeSpec s (hashFn key) := by
  have hsorted := reach_sorted hr
  have hcorr := reach_corr hr
  have hringne : ¬s.ring.length = 0 := by
    intro h0
    rcases List.exists_mem_of_ne_nil _ hne with ⟨k, hk⟩
    have hmem := (hcorr k).mp hk
    rw [List.length_eq_zero] at h0
    simp [h0] at hmem
  rw [getNode, if_neg hringne]
  cases hfi : findIdxO (fun k => decide (hashFn key ≤ k)) s.sortedKeys with
  | some i =>
      have hidx : startIdx (hashFn key) s.sortedKeys = i := by
        rw [startIdx, hfi]
      have hget := findIdxO_get hfi
      have hlt := findIdxO_lt_length hfi
      have hfsorted : List.Sorted (· ≤ ·)
          (s.sortedKeys.filter (fun k => decide (hashFn key ≤ k))) :=
        hsorted.filter _
      have hmin := min?_eq_head_of_sorted hfsorted
      cases hh : (s.sortedKeys.filter
          (fun k => decide (hashFn key ≤ k))).head? with
      | none =>
          exfalso
          rw [hh, List.get?_eq_get hlt] at hget
          exact Option.noConfusion hget
      | some m =>
          rw [hh] at hget hmin
          rw [hidx, hget]
          rw [getNodeSpec, hmin]
  | none =>
      have hidx : startIdx (hashFn key) s.sortedKeys = 0 := by
        rw [startIdx, hfi]
      have hfilter : s.sortedKeys.filter
          (fun k => decide (hashFn key ≤ k)) = [] := by
        rw [List.filter_eq_nil_iff]
        intro a ha
        simp [findIdxO_eq_none.mp hfi a ha]
      cases hsk : s.sortedKeys with
      | nil => exact absurd hsk hne
      | cons a rest =>
          rw [hsk] at hfi hfilter
          have hidx2 : startIdx (hashFn key) (a :: rest) = 0 := by
            rw [startIdx, hfi]
          have hmin : (a :: rest).min? = some a := by
            rw [min?_eq_head_of_sorted (hsk ▸ hsorted)]
            rfl
          rw [hidx2]
          rw [getNodeSpec, hsk, hfilter, hmin]
          rfl

/-- Loop invariant of the `getNodes` while-loop: when the loop exits,
the result is duplicate-free, drawn from ring bindings, and no longer
than `count`. -/
theorem gnLoop_inv (ring : List (Nat × String)) (sk : List Nat)
    (count : Int) :
    ∀ (fuel idx : Nat) (res res1 : List String),
      gnLoop ring sk count fuel idx res = some res1 →
      res.Nodup → (∀ n ∈ res, ∃ pos, (pos, n) ∈ ring) →
      res.length ≤ count.toNat →
      res1.Nodup ∧ (∀ n ∈ res1, ∃ pos, (pos, n) ∈ ring) ∧
        res1.length ≤ count.toNat
  | 0, idx, res, res1, hrun, _, _, _ => by
      exact Option.noConfusion hrun
  | fuel + 1, idx, res, res1, hrun, hnd, hmem, hlen => by
      rw [gnLoop] at hrun
      by_cases hguard :
          (res.length : Int) < count ∧ res.length < sk.length
      · rw [if_pos hguard] at hrun
        cases hget : sk.get? idx with
        | none =>
            simp only [hget] at hrun
            exact gnLoop_inv ring sk count fuel _ res res1 hrun hnd hmem hlen
        | some k =>
            simp only [hget] at hrun
            cases hv : msGet ring k with
            | none =>
                simp only [hv] at hrun
                exact gnLoop_inv ring sk count fuel _ res res1 hrun
                  hnd hmem hlen
            | some n =>
                simp only [hv] at hrun
                by_cases hpush : n ≠ "" ∧ n ∉ res
                · rw [if_pos hpush] at hrun
                  apply gnLoop_inv ring sk count fuel _ _ res1 hrun
                  · exact List.Nodup.append hnd (List.nodup_singleton n)
                      (by simpa using fun hn => hpush.2 hn)
                  · intro n1 hn1
                    rcases List.mem_append.mp hn1 with h1 | h1
                    · exact hmem n1 h1
                    · exact ⟨k, by
                        rw [List.mem_singleton] at h1
                        exact h1 ▸ msGet_mem hv⟩
                  · have h1 := hguard.1
                    rw [List.length_append, List.length_singleton]
                    omega
                · rw [if_neg hpush] at hrun
                  exact gnLoop_inv ring sk count fuel _ res res1 hrun
                    hnd hmem hlen
      · rw [if_neg hguard] at hrun
        cases hrun
        exact ⟨hnd, hmem, hlen⟩

theorem CHState.ext_fields {a b : CHState} (h1 : a.ring = b.ring)
    (h2 : a.sortedKeys = b.sortedKeys)
    (h3 : a.numberOfReplicas = b.numberOfReplicas)
    (h4 : a.weights = b.weights) : a = b := by
  cases a
  cases b
  simp_all

theorem nodup_replicaHashes {hashFn : String → Nat} {X : String}
    {m B : Nat} (hmB : m ≤ B)
    (hinj : ∀ i j, i < B → j < B → hashFn (rk X i) = hashFn (rk X j) →
      i = j) : (replicaHashes hashFn X m).Nodup := by
  apply List.Nodup.map_on ?_ (List.nodup_range m)
  intro i hi j hj hf
  exact hinj i j (lt_of_lt_of_le (List.mem_range.mp hi) hmB)
    (lt_of_lt_of_le (List.mem_range.mp hj) hmB) hf

/-- Adding an absent node and removing it again restores the previous
state exactly, provided the node's replica hashes are fresh (collide
neither with each other nor with any stored position). -/
theorem add_remove_cancel {hashFn : String → Nat} {replicas : Int}
    {s : CHState} {X : String} {w : Int}
    (hr : Reachable hashFn replicas s)
    (hX : X ∉ s.weights.map Prod.fst)
    (hfresh : ∀ i, i < (s.numberOfReplicas * effWeight (some w)).toNat →
      hashFn (rk X i) ∉ s.sortedKeys ∧
        hashFn (rk X i) ∉ s.ring.map Prod.fst)
    (hinj : ∀ i j, i < (s.numberOfReplicas * effWeight (some w)).toNat →
      j < (s.numberOfReplicas * effWeight (some w)).toNat →
      hashFn (rk X i) = hashFn (rk X j) → i = j) :
    removeNode hashFn (addNode hashFn s X w) X = s := by
  have hsorted := reach_sorted hr
  have hm_le : (s.numberOfReplicas * w).toNat ≤
      (s.numberOfReplicas * effWeight (some w)).toNat := by
    by_cases h0 : w = 0
    · subst h0
      simp
    · simp [effWeight, h0]
  have hrecw : msGet (addNode hashFn s X w).weights X = some w := by
    rw [addNode_weights, msGet_msSet_self]
  have hndA : (replicaHashes hashFn X
      ((s.numberOfReplicas * w).toNat)).Nodup :=
    nodup_replicaHashes hm_le hinj
  have hfreshA : ∀ h ∈ replicaHashes hashFn X
      ((s.numberOfReplicas * w).toNat), h ∉ s.ring.map Prod.fst := by
    intro h hh
    rcases mem_replicaHashes.mp hh with ⟨i, hi, hhash⟩
    exact hhash ▸ (hfresh i (lt_of_lt_of_le hi hm_le)).2
  have hringA : (addNode hashFn s X w).ring =
      s.ring ++ (replicaHashes hashFn X
        ((s.numberOfReplicas * w).toNat)).map (fun h => (h, X)) := by
    rw [addNode_ring]
    exact foldl_msSet_fresh X _ _ hndA hfreshA
  have hskA : (addNode hashFn s X w).sortedKeys =
      List.insertionSort (· ≤ ·) (s.sortedKeys ++
        replicaHashes hashFn X ((s.numberOfReplicas * w).toNat)) :=
    addNode_sortedKeys hashFn s X w
  have hringR : (removeNode hashFn (addNode hashFn s X w) X).ring =
      (replicaHashes hashFn X
          ((s.numberOfReplicas * effWeight (some w)).toNat)).foldl
        (fun r h => msDelete r h) (addNode hashFn s X w).ring := by
    rw [removeNode_ring, addNode_replicas, hrecw]
  have hskR : (removeNode hashFn (addNode hashFn s X w) X).sortedKeys =
      (replicaHashes hashFn X
          ((s.numberOfReplicas * effWeight (some w)).toNat)).foldl
        (fun ks h => ks.filter (fun k => k ≠ h))
        (addNode hashFn s X w).sortedKeys := by
    rw [removeNode_sortedKeys, addNode_replicas, hrecw]
  apply CHState.ext_fields
  · -- ring restored
    rw [hringR, hringA]
    by_cases h0 : w = 0
    · subst h0
      have hzero : (s.numberOfReplicas * (0 : Int)).toNat = 0 := by simp
      rw [hzero]
      simp only [replicaHashes, List.range_zero, List.map_nil,
        List.append_nil]
      apply foldl_msDelete_not_mem
      intro h hh
      rcases mem_replicaHashes.mp hh with ⟨i, hi, hhash⟩
      exact hhash ▸ (hfresh i hi).2
    · have hBm : (s.numberOfReplicas * effWeight (some w)).toNat =
          (s.numberOfReplicas * w).toNat := by
        simp [effWeight, h0]
      rw [hBm]
      exact foldl_msDelete_cancel X _ _ hndA hfreshA
  · -- sorted key list restored
    rw [hskR, hskA, foldl_filter_ne]
    have hperm := (List.perm_insertionSort (· ≤ ·)
      (s.sortedKeys ++ replicaHashes hashFn X
        ((s.numberOfReplicas * w).toNat))).filter
      (fun k => decide (k ∉ replicaHashes hashFn X
        ((s.numberOfReplicas * effWeight (some w)).toNat)))
    have hsplit : (s.sortedKeys ++ replicaHashes hashFn X
        ((s.numberOfReplicas * w).toNat)).filter
        (fun k => decide (k ∉ replicaHashes hashFn X
          ((s.numberOfReplicas * effWeight (some w)).toNat)))
        = s.sortedKeys := by
      rw [List.filter_append]
      have h1 : s.sortedKeys.filter
          (fun k => decide (k ∉ replicaHashes hashFn X
            ((s.numberOfReplicas * effWeight (some w)).toNat)))
          = s.sortedKeys := by
        rw [List.filter_eq_self]
        intro a ha
        simp only [decide_eq_true_eq]
        intro hmem
        rcases mem_replicaHashes.mp hmem with ⟨i, hi, hhash⟩
        exact (hfresh i hi).1 (hhash ▸ ha)
      have h2 : (replicaHashes hashFn X
          ((s.numberOfReplicas * w).toNat)).filter
          (fun k => decide (k ∉ replicaHashes hashFn X
            ((s.numberOfReplicas * effWeight (some w)).toNat)))
          = [] := by
        rw [List.filter_eq_nil_iff]
        intro a ha
        simp only [decide_eq_true_eq, not_not]
        rcases mem_replicaHashes.mp ha with ⟨i, hi, hhash⟩
        exact mem_replicaHashes.mpr ⟨i, lt_of_lt_of_le hi hm_le, hhash⟩
      rw [h1, h2, List.append_nil]
    rw [hsplit] at hperm
    exact List.eq_of_perm_of_sorted hperm
      ((List.sorted_insertionSort _ _).filter _) hsorted
  · rw [removeNode_replicas, addNode_replicas]
  · rw [removeNode_weights, addNode_weights, msSet_not_mem hX w,
      msDelete_append_left hX]
    simp [msDelete]

theorem ring_ne_of_sk_ne {hashFn : String → Nat} {replicas : Int}
    {s : CHState} (hr : Reachable hashFn replicas s)
    (hne : s.sortedKeys ≠ []) : ¬s.ring.length = 0 := by
  intro h0
  rcases List.exists_mem_of_ne_nil _ hne with ⟨k, hk⟩
  have hmem := (reach_corr hr k).mp hk
  rw [List.length_eq_zero] at h0
  simp [h0] at hmem

/-- On a reachable state with stored positions, `getNode` returns a node
bound in the ring map. -/
theorem getNode_some_of_reachable {hashFn : String → Nat} {replicas : Int}
    {s : CHState} (hr : Reachable hashFn replicas s)
    (hne : s.sortedKeys ≠ []) (key : String) :
    ∃ n pos, getNode hashFn s key = some n ∧ (pos, n) ∈ s.ring := by
  have hringne := ring_ne_of_sk_ne hr hne
  have hi : startIdx (hashFn key) s.sortedKeys < s.sortedKeys.length := by
    rw [startIdx]
    cases hfi : findIdxO (fun k => decide (hashFn key ≤ k)) s.sortedKeys with
    | some i => exact findIdxO_lt_length hfi
    | none => exact List.length_pos.mpr hne
  have hget := List.get?_eq_get hi
  have hpos : s.sortedKeys.get ⟨startIdx (hashFn key) s.sortedKeys, hi⟩
      ∈ s.sortedKeys := List.get_mem _ _ hi
  have hkeys := (reach_corr hr _).mp hpos
  rcases exists_msGet_of_mem_keys hkeys with ⟨n, hn⟩
  refine ⟨n, _, ?_, msGet_mem hn⟩
  rw [getNode, if_neg hringne, hget]
  exact hn

/-- Whatever `getNode` returns was bound in the ring map (no
reachability needed). -/
theorem getNode_some_mem {hashFn : String → Nat} {s : CHState}
    {key : String} {n : String} (h : getNode hashFn s key = some n) :
    ∃ pos, (pos, n) ∈ s.ring := by
  rw [getNode] at h
  by_cases h0 : s.ring.length = 0
  · rw [if_pos h0] at h
    exact Option.noConfusion h
  · rw [if_neg h0] at h
    cases hget : s.sortedKeys.get? (startIdx (hashFn key) s.sortedKeys) with
    | none =>
        rw [hget] at h
        exact Option.noConfusion h
    | some k =>
        rw [hget] at h
        exact ⟨k, msGet_mem h⟩

/-- Whenever the `getNodes` loop exits, the result is duplicate-free,
bounded by `count`, and drawn from the ring bindings. -/
theorem getNodes_inv {hashFn : String → Nat} {s : CHState} {key : String}
    {count : Int} {fuel : Nat} {r : List String}
    (h : getNodes hashFn s key count fuel = some r) :
    r.Nodup ∧ (∀ n ∈ r, ∃ pos, (pos, n) ∈ s.ring) ∧
      r.length ≤ count.toNat := by
  rw [getNodes] at h
  by_cases h0 : s.sortedKeys.length = 0 ∨ count ≤ 0
  · rw [if_pos h0] at h
    cases h
    simp
  · rw [if_neg h0] at h
    exact gnLoop_inv s.ring s.sortedKeys count fuel _ [] r h
      List.nodup_nil (by simp) (by simp)

/-! ### Touched replica pairs and collision freedom (for the
per-node position-count invariant) -/

/-- No-re-add reachability, recording the `(node, replicaIndex)` pairs
whose hashes each operation computed.  The collision-freedom hypothesis
of the count invariant is stated over exactly these pairs. -/
inductive ReachNC (hashFn : String → Nat) (replicas : Int) :
    CHState → List (String × Nat) → Prop where
  | init : ReachNC hashFn replicas (initState replicas) []
  | add {s : CHState} {tp : List (String × Nat)} (node : String) (w : Int) :
      ReachNC hashFn replicas s tp →
      msGet s.weights node = none →
      ReachNC hashFn replicas (addNode hashFn s node w)
        (tp ++ (List.range ((s.numberOfReplicas * w).toNat)).map
          (fun i => (node, i)))
  | remove {s : CHState} {tp : List (String × Nat)} (node : String) :
      ReachNC hashFn replicas s tp →
      ReachNC hashFn replicas (removeNode hashFn s node)
        (tp ++ (List.range ((s.numberOfReplicas *
            effWeight (msGet s.weights node)).toNat)).map
          (fun i => (node, i)))

/-- The touched replica pairs hash without collision: two touched pairs
with equal hash are the same pair. -/
def PD (hashFn : String → Nat) (tp : List (String × Nat)) : Prop :=
  ∀ p1 ∈ tp, ∀ p2 ∈ tp,
    hashFn (rk p1.1 p1.2) = hashFn (rk p2.1 p2.2) → p1 = p2

instance PD.decidable (hashFn : String → Nat)
    (tp : List (String × Nat)) : Decidable (PD hashFn tp) :=
  decidable_of_iff (∀ p1 ∈ tp, ∀ p2 ∈ tp,
    hashFn (rk p1.1 p1.2) = hashFn (rk p2.1 p2.2) → p1 = p2) Iff.rfl

theorem PD_mono {hashFn : String → Nat} {tp tp1 : List (String × Nat)}
    (hsub : ∀ p ∈ tp, p ∈ tp1) (h : PD hashFn tp1) : PD hashFn tp :=
  fun p1 h1 p2 h2 => h p1 (hsub _ h1) p2 (hsub _ h2)

theorem ReachNC.toNR {hashFn : String → Nat} {replicas : Int}
    {s : CHState} {tp : List (String × Nat)}
    (h : ReachNC hashFn replicas s tp) : ReachableNR hashFn replicas s := by
  induction h with
  | init => exact ReachableNR.init
  | add node w _ hfresh ih => exact ReachableNR.add node w ih hfresh
  | remove node _ ih => exact ReachableNR.remove node ih

theorem msGet_msDelete_self {α β : Type} [DecidableEq α]
    {m : List (α × β)} (hnd : (m.map Prod.fst).Nodup) (k : α) :
    msGet (msDelete m k) k = none := by
  rw [msGet_eq_none, mem_keys_msDelete hnd]
  simp

/-- Characterization of the ring under collision-free no-re-add traces:
a position is bound to a node exactly when it is one of the
`replicas × weight` replica hashes of a node in the weight table, and
every weight entry's replica pairs were touched by the trace. -/
theorem reachNC_char {hashFn : String → Nat} {replicas : Int}
    {s : CHState} {tp : List (String × Nat)}
    (h : ReachNC hashFn replicas s tp) :
    PD hashFn tp →
      ((∀ n w, msGet s.weights n = some w →
        ∀ i, i < (s.numberOfReplicas * w).toNat → (n, i) ∈ tp) ∧
      (∀ hv n, (hv, n) ∈ s.ring ↔ ∃ w, msGet s.weights n = some w ∧
        ∃ i, i < (s.numberOfReplicas * w).toNat ∧
          hv = hashFn (rk n i))) := by
  induction h with
  | init =>
      intro _
      constructor
      · intro n w hw
        simp [initState, msGet] at hw
      · intro hv n
        simp [initState, msGet]
  | @add s tp node w hnc hfresh ih =>
      intro hpd
      have hsub : ∀ p ∈ tp, p ∈ tp ++
          (List.range ((s.numberOfReplicas * w).toNat)).map
            (fun i => (node, i)) :=
        fun p hp => List.mem_append_left _ hp
      obtain ⟨ihTP, ihRing⟩ := ih (PD_mono hsub hpd)
      have hnewmem : ∀ i, i < (s.numberOfReplicas * w).toNat →
          (node, i) ∈ tp ++
            (List.range ((s.numberOfReplicas * w).toNat)).map
              (fun i => (node, i)) := by
        intro i hi
        exact List.mem_append_right _
          (List.mem_map.mpr ⟨i, List.mem_range.mpr hi, rfl⟩)
      have hkeysfresh : ∀ hv ∈ replicaHashes hashFn node
          ((s.numberOfReplicas * w).toNat), hv ∉ s.ring.map Prod.fst := by
        intro hv hmem hkey
        rcases mem_replicaHashes.mp hmem with ⟨i, hi, hhash⟩
        rcases List.mem_map.mp hkey with ⟨p, hp, hpfst⟩
        obtain ⟨hvv, nn⟩ := p
        rcases (ihRing hvv nn).mp hp with ⟨w0, hw0, j, hj, hhash0⟩
        have hp1 : (nn, j) ∈ tp := ihTP nn w0 hw0 j hj
        have heq := hpd (nn, j) (hsub _ hp1) (node, i) (hnewmem i hi)
          (by
            show hashFn (rk nn j) = hashFn (rk node i)
            have hpf : hvv = hv := hpfst
            rw [← hhash0, hpf, hhash])
        have hnn : nn = node := congrArg Prod.fst heq
        rw [hnn, hfresh] at hw0
        exact Option.noConfusion hw0
      have hnd_hs : (replicaHashes hashFn node
          ((s.numberOfReplicas * w).toNat)).Nodup := by
        apply List.Nodup.map_on ?_ (List.nodup_range _)
        intro i hi j hj hf
        have heq := hpd (node, i) (hnewmem i (List.mem_range.mp hi))
          (node, j) (hnewmem j (List.mem_range.mp hj)) hf
        exact congrArg Prod.snd heq
      have hringA : (addNode hashFn s node w).ring =
          s.ring ++ (replicaHashes hashFn node
            ((s.numberOfReplicas * w).toNat)).map (fun hv => (hv, node)) := by
        rw [addNode_ring]
        exact foldl_msSet_fresh node _ _ hnd_hs hkeysfresh
      constructor
      · intro n w1 hw1 i hi
        rw [addNode_weights] at hw1
        rw [addNode_replicas] at hi
        by_cases hn : n = node
        · subst hn
          rw [msGet_msSet_self] at hw1
          cases hw1
          exact hnewmem i hi
        · rw [msGet_msSet_ne _ _ hn] at hw1
          exact List.mem_append_left _ (ihTP n w1 hw1 i hi)
      · intro hv n
        rw [hringA, addNode_weights, addNode_replicas]
        constructor
        · intro hmem
          rcases List.mem_append.mp hmem with hmem | hmem
          · rcases (ihRing hv n).mp hmem with ⟨w0, hw0, j, hj, hh⟩
            have hn : n ≠ node := by
              intro he
              rw [he, hfresh] at hw0
              exact Option.noConfusion hw0
            exact ⟨w0, by rw [msGet_msSet_ne _ _ hn]; exact hw0, j, hj, hh⟩
          · rcases List.mem_map.mp hmem with ⟨hv0, hmem0, heq⟩
            have hv0eq : hv0 = hv := congrArg Prod.fst heq
            have hneq : node = n := congrArg Prod.snd heq
            rcases mem_replicaHashes.mp hmem0 with ⟨i, hi, hh⟩
            subst hneq
            exact ⟨w, by rw [msGet_msSet_self], i, hi, by
              rw [← hv0eq]; exact hh⟩
        · rintro ⟨w1, hw1, i, hi, hh⟩
          by_cases hn : n = node
          · subst hn
            rw [msGet_msSet_self] at hw1
            cases hw1
            exact List.mem_append_right _
              (List.mem_map.mpr ⟨hv,
                mem_replicaHashes.mpr ⟨i, hi, hh⟩, rfl⟩)
          · rw [msGet_msSet_ne _ _ hn] at hw1
            exact List.mem_append_left _
              ((ihRing hv n).mpr ⟨w1, hw1, i, hi, hh⟩)
  | @remove s tp node hnc ih =>
      intro hpd
      have hsub : ∀ p ∈ tp, p ∈ tp ++
          (List.range ((s.numberOfReplicas *
            effWeight (msGet s.weights node)).toNat)).map
            (fun i => (node, i)) :=
        fun p hp => List.mem_append_left _ hp
      obtain ⟨ihTP, ihRing⟩ := ih (PD_mono hsub hpd)
      have hndkeys : (s.ring.map Prod.fst).Nodup :=
        reach_ring_keys_nodup hnc.toNR.toReachable
      have hwnd : (s.weights.map Prod.fst).Nodup :=
        reach_weights_keys_nodup hnc.toNR.toReachable
      constructor
      · intro n w1 hw1 i hi
        rw [removeNode_weights] at hw1
        rw [removeNode_replicas] at hi
        by_cases hn : n = node
        · subst hn
          rw [msGet_msDelete_self hwnd] at hw1
          exact Option.noConfusion hw1
        · rw [msGet_msDelete_ne _ hn] at hw1
          exact List.mem_append_left _ (ihTP n w1 hw1 i hi)
      · intro hv n
        rw [removeNode_ring, removeNode_weights, removeNode_replicas]
        rw [mem_foldl_msDelete _ _ hndkeys (hv, n)]
        constructor
        · rintro ⟨hmem, hnot⟩
          rcases (ihRing hv n).mp hmem with ⟨w0, hw0, j, hj, hh⟩
          by_cases hn : n = node
          · exfalso
            subst hn
            apply hnot
            by_cases h0 : w0 = 0
            · subst h0
              simp at hj
            · have heffw : effWeight (some w0) = w0 := by
                simp [effWeight, h0]
              rw [hw0, heffw]
              exact mem_replicaHashes.mpr ⟨j, hj, hh⟩
          · exact ⟨w0, by rw [msGet_msDelete_ne _ hn]; exact hw0, j, hj, hh⟩
        · rintro ⟨w1, hw1, i, hi, hh⟩
          by_cases hn : n = node
          · subst hn
            rw [msGet_msDelete_self hwnd] at hw1
            exact Option.noConfusion hw1
          · rw [msGet_msDelete_ne _ hn] at hw1
            refine ⟨(ihRing hv n).mpr ⟨w1, hw1, i, hi, hh⟩, ?_⟩
            intro hmemR
            rcases mem_replicaHashes.mp hmemR with ⟨j, hj, hhj⟩
            have hp1 : (n, i) ∈ tp := ihTP n w1 hw1 i hi
            have hp2 : (node, j) ∈ tp ++
                (List.range ((s.numberOfReplicas *
                  effWeight (msGet s.weights node)).toNat)).map
                  (fun i => (node, i)) :=
              List.mem_append_right _
                (List.mem_map.mpr ⟨j, List.mem_range.mpr hj, rfl⟩)
            have heq := hpd (n, i) (hsub _ hp1) (node, j) hp2
              (by
                show hashFn (rk n i) = hashFn (rk node j)
                rw [← hh, ← hhj])
            exact hn (congrArg Prod.fst heq)

/-- Position count per node: under a collision-free no-re-add trace,
each weighted node owns exactly `replicas × weight` ring positions. -/
theorem reachNC_count {hashFn : String → Nat} {replicas : Int}
    {s : CHState} {tp : List (String × Nat)}
    (h : ReachNC hashFn replicas s tp) (hpd : PD hashFn tp)
    {n : String} {w : Int} (hw : msGet s.weights n = some w) :
    (s.ring.filter (fun p => decide (p.2 = n))).length =
      (s.numberOfReplicas * w).toNat := by
  obtain ⟨ihTP, ihRing⟩ := reachNC_char h hpd
  have hndkeys := reach_ring_keys_nodup h.toNR.toReachable
  have hFsub : (s.ring.filter (fun p => decide (p.2 = n))).Sublist s.ring :=
    List.filter_sublist _
  have hFkeysnd : ((s.ring.filter
      (fun p => decide (p.2 = n))).map Prod.fst).Nodup :=
    (hFsub.map Prod.fst).nodup hndkeys
  have hHnd : (replicaHashes hashFn n
      ((s.numberOfReplicas * w).toNat)).Nodup := by
    apply List.Nodup.map_on ?_ (List.nodup_range _)
    intro i hi j hj hf
    have heq := hpd (n, i) (ihTP n w hw i (List.mem_range.mp hi))
      (n, j) (ihTP n w hw j (List.mem_range.mp hj)) hf
    exact congrArg Prod.snd heq
  have hmemiff : ∀ hv, hv ∈ (s.ring.filter
        (fun p => decide (p.2 = n))).map Prod.fst ↔
      hv ∈ replicaHashes hashFn n ((s.numberOfReplicas * w).toNat) := by
    intro hv
    constructor
    · intro hmem
      rcases List.mem_map.mp hmem with ⟨p, hp, hpf⟩
      rw [List.mem_filter] at hp
      obtain ⟨hpring, hpn⟩ := hp
      obtain ⟨hv0, n0⟩ := p
      have hn0 : n0 = n := of_decide_eq_true hpn
      have hv0eq : hv0 = hv := hpf
      subst hn0
      subst hv0eq
      rcases (ihRing hv0 n0).mp hpring with ⟨w0, hw0, i, hi, hh⟩
      rw [hw] at hw0
      cases hw0
      exact mem_replicaHashes.mpr ⟨i, hi, hh⟩
    · intro hmem
      rcases mem_replicaHashes.mp hmem with ⟨i, hi, hh⟩
      have hring : (hv, n) ∈ s.ring := (ihRing hv n).mpr ⟨w, hw, i, hi, hh⟩
      exact List.mem_map.mpr
        ⟨(hv, n), List.mem_filter.mpr ⟨hring, by simp⟩, rfl⟩
  have hperm := (List.perm_ext_iff_of_nodup hFkeysnd hHnd).mpr hmemiff
  calc (s.ring.filter (fun p => decide (p.2 = n))).length
      = ((s.ring.filter (fun p => decide (p.2 = n))).map Prod.fst).length :=
        (List.length_map _ _).symm
    _ = (replicaHashes hashFn n ((s.numberOfReplicas * w).toNat)).length :=
        hperm.length_eq
    _ = (s.numberOfReplicas * w).toNat := by
        rw [replicaHashes, List.length_map, List.length_range]

/-! ### Concrete instances used by counterexamples and witnesses -/

/-- Hash used for small concrete rings: collision-free on the replica
keys of node `"A"` with up to two replicas. -/
def hfC3 (k : String) : Nat :=
  if k = "A:0" then 0 else if k = "A:1" then 1 else 2

/-- Like `hfC3` but keys hash above every stored position, exercising
wrap-around. -/
def hfStale (k : String) : Nat :=
  if k = "A:0" then 0 else if k = "A:1" then 1 else 5

/-- A constant hash: every replica key collides. -/
def hfZero (_ : String) : Nat := 0

/-- Replicas-2 ring holding the single node `"A"` (two positions, one
distinct node). -/
def sAB : CHState := addNode hfC3 (initState 2) ("A") 1

/-- Replicas-1 ring holding the single node `"A"`. -/
def sA1 : CHState := addNode hfC3 (initState 1) ("A") 1

/-- The stale state: add `"A"` with weight 2, re-add it with weight 1,
then remove it.  The removal only deletes one of the two positions, so
a binding to `"A"` survives while the weight table is empty. -/
def staleS : CHState :=
  removeNode hfStale
    (addNode hfStale (addNode hfStale (initState 1) ("A") 2) ("A") 1)
    ("A")

/-- Re-add of `"A"` with a smaller weight (weight table says 1, ring
holds 2 positions). -/
def s4cex : CHState :=
  addNode hfC3 (addNode hfC3 (initState 1) ("A") 2) ("A") 1

/-- Ring built with the constant hash, for the `removeNode`-collision
counterexample. -/
def s8 : CHState := addNode hfZero (initState 1) ("A") 1

/-- The 18 replica keys of the spec's example scenario. -/
def exampleKeys : List String :=
  ["NodeA:0", "NodeA:1", "NodeA:2", "NodeA:3", "NodeA:4", "NodeA:5",
   "NodeB:0", "NodeB:1", "NodeB:2",
   "NodeC:0", "NodeC:1", "NodeC:2", "NodeC:3", "NodeC:4", "NodeC:5",
   "NodeC:6", "NodeC:7", "NodeC:8"]

/-- Collision-free hash for the example scenario: the position of the
key in `exampleKeys` (18 for any other string). -/
def exHash (k : String) : Nat := exampleKeys.indexOf k

/-- The spec's example scenario: replicas 3, `NodeA` weight 2, `NodeB`
weight 1, `NodeC` weight 3. -/
def exState : CHState :=
  addNode exHash
    (addNode exHash (addNode exHash (initState 3) ("NodeA") 2)
      ("NodeB") 1)
    ("NodeC") 3

/-! ### The `getNodes` loop never exits on `sAB` with `count = 2` -/

/-- Once `"A"` has been collected on the two-position one-node ring,
every further iteration leaves the result unchanged while the guard
`result.length < count && result.length < ringSize` stays true. -/
theorem gnLoopC3_stuck :
    ∀ (fuel idx : Nat), idx < 2 →
      gnLoop [(0, ("A" : String)), (1, "A")] [0, 1] 2 fuel idx ["A"] =
        none := by
  intro fuel
  induction fuel with
  | zero => intro idx _; rfl
  | succ fuel ih =>
      intro idx hidx
      interval_cases idx
      · rw [gnLoop, if_pos (by decide)]
        exact ih 1 (by decide)
      · rw [gnLoop, if_pos (by decide)]
        exact ih 0 (by decide)

theorem addNode_sk_length (hashFn : String → Nat) (s : CHState)
    (node : String) (w : Int) :
    (addNode hashFn s node w).sortedKeys.length =
      s.sortedKeys.length + (s.numberOfReplicas * w).toNat := by
  rw [addNode_sortedKeys, (List.perm_insertionSort _ _).length_eq,
    List.length_append, replicaHashes, List.length_map, List.length_range]

/-! ### Claims -/

/-- C1: on every reachable ring state with at least one stored position,
`getNode(key)` returns the node bound to the smallest stored position
`≥ hashFn(key)`, wrapping around to the node bound to the smallest
stored position overall when no stored position is `≥ hashFn(key)`
(`getNodeSpec` is that description, written from the spec). -/
theorem claim_C1_getNode_wrap_successor (hashFn : String → Nat)
    (replicas : Int) (s : CHState) (hr : Reachable hashFn replicas s)
    (hne : s.sortedKeys ≠ []) (key : String) :
    getNode hashFn s key = getNodeSpec s (hashFn key) :=
  getNode_eq_getNodeSpec hr hne key

/-- Witness for C1 at the one-node replicas-2 ring. -/
theorem claim_C1_witness :
    Reachable hfC3 2 sAB ∧ sAB.sortedKeys ≠ [] ∧
      getNode hfC3 sAB ("k") = getNodeSpec sAB (hfC3 ("k")) :=
  ⟨Reachable.add ("A") 1 Reachable.init, by decide,
    claim_C1_getNode_wrap_successor hfC3 2 sAB
      (Reachable.add ("A") 1 Reachable.init) (by decide) ("k")⟩

/-- C3 (the code contradicts it): on the replicas-2 ring holding the
single node `"A"` — a non-empty position set — `getNodes("k", 2)` never
exits its loop, however much fuel it is given: the guard compares the
number of *collected distinct nodes* (stuck at 1) with the ring size
(2) instead of counting visited positions, so the loop never stops. -/
theorem claim_C3_getNodes_nonterminating :
    ∀ fuel : Nat, getNodes hfC3 sAB ("k") 2 fuel = none := by
  intro fuel
  have h1 : sAB.ring = [(0, ("A" : String)), (1, "A")] := by decide
  have h2 : sAB.sortedKeys = [0, 1] := by decide
  rw [getNodes, if_neg (by decide), h1, h2,
    show startIdx (hfC3 ("k")) [0, 1] = 0 from by decide]
  cases fuel with
  | zero => rfl
  | succ fuel =>
      rw [gnLoop, if_pos (by decide)]
      exact gnLoopC3_stuck fuel 1 (by decide)

/-- C7: re-adding a node appends `replicas × weight` further replica
positions on top of the existing ones instead of replacing them, so
when that count is positive the state after `addNode(X,w); addNode(X,w)`
differs from the state after a single `addNode(X,w)`. -/
theorem claim_C7_readd_not_idempotent (hashFn : String → Nat)
    (s : CHState) (X : String) (w : Int) :
    (addNode hashFn (addNode hashFn s X w) X w).sortedKeys.length =
      (addNode hashFn s X w).sortedKeys.length +
        (s.numberOfReplicas * w).toNat ∧
    (0 < (s.numberOfReplicas * w).toNat →
      addNode hashFn (addNode hashFn s X w) X w ≠ addNode hashFn s X w) := by
  have hlen : (addNode hashFn (addNode hashFn s X w) X w).sortedKeys.length
      = (addNode hashFn s X w).sortedKeys.length +
        (s.numberOfReplicas * w).toNat := by
    rw [addNode_sk_length, addNode_replicas]
  refine ⟨hlen, fun hpos heq => ?_⟩
  have hc := congrArg (fun t => t.sortedKeys.length) heq
  simp only at hc
  rw [hlen] at hc
  omega

/-- Witness for C7 on the replicas-1 ring. -/
theorem claim_C7_witness :
    0 < (((initState 1).numberOfReplicas * 1).toNat) ∧
      ((addNode hfC3 (addNode hfC3 (initState 1) ("A") 1) ("A")
          1).sortedKeys.length =
        (addNode hfC3 (initState 1) ("A") 1).sortedKeys.length +
          ((initState 1).numberOfReplicas * 1).toNat ∧
      (0 < ((initState 1).numberOfReplicas * 1).toNat →
        addNode hfC3 (addNode hfC3 (initState 1) ("A") 1) ("A") 1 ≠
          addNode hfC3 (initState 1) ("A") 1)) :=
  ⟨by decide, claim_C7_readd_not_idempotent hfC3 (initState 1) ("A") 1⟩

/-- C10: in every reachable ring state the sorted key list holds
exactly the hash values that key the ring map (duplicates possible in
the list, but no value outside the map's key set and no map key
missing); consequently the ring map is empty exactly when the sorted
key list is. -/
theorem claim_C10_key_list_matches_ring (hashFn : String → Nat)
    (replicas : Int) (s : CHState) (hr : Reachable hashFn replicas s) :
    (∀ k : Nat, k ∈ s.sortedKeys ↔ k ∈ s.ring.map Prod.fst) ∧
      (s.ring = [] ↔ s.sortedKeys = []) := by
  refine ⟨reach_corr hr, ?_, ?_⟩
  · intro h0
    rw [List.eq_nil_iff_forall_not_mem]
    intro k hk
    have hmem := (reach_corr hr k).mp hk
    simp [h0] at hmem
  · intro h0
    rw [List.eq_nil_iff_forall_not_mem]
    intro p hp
    have hkey : p.1 ∈ s.ring.map Prod.fst := List.mem_map_of_mem _ hp
    have hmem := (reach_corr hr p.1).mpr hkey
    rw [h0] at hmem
    simp at hmem

/-- Witness for C10 after an add followed by a remove. -/
theorem claim_C10_witness :
    Reachable hfC3 2 (removeNode hfC3 sAB ("A")) ∧
      ((∀ k : Nat, k ∈ (removeNode hfC3 sAB ("A")).sortedKeys ↔
          k ∈ (removeNode hfC3 sAB ("A")).ring.map Prod.fst) ∧
        ((removeNode hfC3 sAB ("A")).ring = [] ↔
          (removeNode hfC3 sAB ("A")).sortedKeys = [])) :=
  ⟨Reachable.remove ("A") (Reachable.add ("A") 1 Reachable.init),
    claim_C10_key_list_matches_ring hfC3 2 _
      (Reachable.remove ("A") (Reachable.add ("A") 1 Reachable.init))⟩

/-- C2 counterexample: `staleS` is reachable (add `"A"` weight 2, re-add
weight 1, remove), its position set is non-empty, yet `getNode` returns
`"A"`, which is no longer recorded in the weight table. -/
theorem claim_C2_counterexample :
    Reachable hfStale 1 staleS ∧ staleS.sortedKeys ≠ [] ∧
      getNode hfStale staleS ("k") = some ("A") ∧ staleS.weights = [] :=
  ⟨Reachable.remove ("A") (Reachable.add ("A") 1
      (Reachable.add ("A") 2 Reachable.init)),
    by decide, by decide, by decide⟩

/-- C2 amended: restricted to states reachable without re-adding a node
still present in the weight table, `getNode` on a non-empty ring never
returns the empty sentinel and the returned node is recorded in the
weight table. -/
theorem claim_C2_amended_coverage (hashFn : String → Nat)
    (replicas : Int) (s : CHState) (hr : ReachableNR hashFn replicas s)
    (hne : s.sortedKeys ≠ []) (key : String) :
    ∃ n, getNode hashFn s key = some n ∧
      ∃ w, msGet s.weights n = some w := by
  rcases getNode_some_of_reachable hr.toReachable hne key with
    ⟨n, pos, hget, hmem⟩
  rcases reachNR_ring_values hr (pos, n) hmem with ⟨w, hw, _⟩
  exact ⟨n, hget, w, hw⟩

/-- Witness for the amended C2 on the one-node replicas-1 ring. -/
theorem claim_C2_witness :
    ReachableNR hfC3 1 sA1 ∧ sA1.sortedKeys ≠ [] ∧
      ∃ n, getNode hfC3 sA1 ("k") = some n ∧
        ∃ w, msGet sA1.weights n = some w :=
  ⟨ReachableNR.add ("A") 1 ReachableNR.init rfl, by decide,
    claim_C2_amended_coverage hfC3 1 sA1
      (ReachableNR.add ("A") 1 ReachableNR.init rfl) (by decide) ("k")⟩

/-- C6 counterexample: on the reachable state `staleS` the exiting
`getNodes("k", 1)` returns `["A"]`, whose entry is not a currently
present node, and whose length 1 exceeds the 0 distinct nodes present. -/
theorem claim_C6_counterexample :
    Reachable hfStale 1 staleS ∧
      getNodes hfStale staleS ("k") 1 2 = some ["A"] ∧
      staleS.weights = [] :=
  ⟨Reachable.remove ("A") (Reachable.add ("A") 1
      (Reachable.add ("A") 2 Reachable.init)),
    by decide, by decide⟩

/-- C6 amended: restricted to states reachable without re-adding a node
still present in the weight table, any sequence `getNodes` returns has
at most `count` entries, is duplicate-free, draws every entry from the
weight table, and never exceeds the number of distinct nodes present. -/
theorem claim_C6_amended_redundancy (hashFn : String → Nat)
    (replicas : Int) (s : CHState) (hr : ReachableNR hashFn replicas s)
    (key : String) (count : Int) (fuel : Nat) (r : List String)
    (hrun : getNodes hashFn s key count fuel = some r) :
    r.length ≤ count.toNat ∧ r.Nodup ∧
      (∀ n ∈ r, ∃ w, msGet s.weights n = some w) ∧
      r.length ≤ s.weights.length := by
  obtain ⟨hnd, hmem, hlen⟩ := getNodes_inv hrun
  have hpresent : ∀ n ∈ r, ∃ w, msGet s.weights n = some w := by
    intro n hn
    rcases hmem n hn with ⟨pos, hpos⟩
    rcases reachNR_ring_values hr (pos, n) hpos with ⟨w, hw, _⟩
    exact ⟨w, hw⟩
  refine ⟨hlen, hnd, hpresent, ?_⟩
  have hsub : ∀ n ∈ r, n ∈ s.weights.map Prod.fst := by
    intro n hn
    rcases hpresent n hn with ⟨w, hw⟩
    exact List.mem_map_of_mem _ (msGet_mem hw)
  calc r.length ≤ (s.weights.map Prod.fst).length :=
        nodup_subset_length hnd hsub
    _ = s.weights.length := List.length_map _ _

/-- Witness for the amended C6 on the one-node replicas-1 ring. -/
theorem claim_C6_witness :
    ReachableNR hfC3 1 sA1 ∧ getNodes hfC3 sA1 ("k") 1 2 = some ["A"] ∧
      ((["A"] : List String).length ≤ (1 : Int).toNat ∧
        (["A"] : List String).Nodup ∧
        (∀ n ∈ (["A"] : List String), ∃ w, msGet sA1.weights n = some w) ∧
        (["A"] : List String).length ≤ sA1.weights.length) :=
  ⟨ReachableNR.add ("A") 1 ReachableNR.init rfl, by decide,
    claim_C6_amended_redundancy hfC3 1 sA1
      (ReachableNR.add ("A") 1 ReachableNR.init rfl) ("k") 1 2 ["A"]
      (by decide)⟩

/-- C4 counterexample: reachable via add `"A"` weight 2 then re-add
weight 1 (no replica-hash collisions under `hfC3`), the weight table
records weight 1 for `"A"` but the ring holds 2 positions bound to
`"A"`, not `replicas × weight = 1`. -/
theorem claim_C4_counterexample :
    Reachable hfC3 1 s4cex ∧ msGet s4cex.weights ("A") = some 1 ∧
      (s4cex.ring.filter (fun p => decide (p.2 = "A"))).length = 2 ∧
      (s4cex.numberOfReplicas * 1).toNat = 1 :=
  ⟨Reachable.add ("A") 1 (Reachable.add ("A") 2 Reachable.init),
    by decide, by decide, by decide⟩

/-- C4 amended: in every state reached without re-adding a present node
and with collision-free replica hashes, each node in the weight table
owns exactly `replicas × weight` ring positions; the spec's example
scenario (replicas 3, weights 2/1/3) produces an 18-position ring. -/
theorem claim_C4_amended_position_count :
    (∀ (hashFn : String → Nat) (replicas : Int) (s : CHState)
        (tp : List (String × Nat)),
      ReachNC hashFn replicas s tp → PD hashFn tp →
      ∀ n w, msGet s.weights n = some w →
        (s.ring.filter (fun p => decide (p.2 = n))).length =
          (s.numberOfReplicas * w).toNat) ∧
    exState.sortedKeys.length = 18 ∧ exState.ring.length = 18 := by
  refine ⟨?_, by decide, by decide⟩
  intro hashFn replicas s tp h hpd n w hw
  exact reachNC_count h hpd hw

/-- Witness for C4 after one add of `NodeA` with weight 2 (6 positions
on a replicas-3 ring). -/
theorem claim_C4_witness :
    PD exHash ([] ++
      (List.range (((initState 3).numberOfReplicas * 2).toNat)).map
        (fun i => (("NodeA" : String), i))) ∧
    msGet (addNode exHash (initState 3) ("NodeA") 2).weights ("NodeA") =
      some 2 ∧
    ((addNode exHash (initState 3) ("NodeA") 2).ring.filter
        (fun p => decide (p.2 = "NodeA"))).length =
      ((addNode exHash (initState 3) ("NodeA") 2).numberOfReplicas *
        2).toNat :=
  ⟨by decide, by decide,
    claim_C4_amended_position_count.1 exHash 3 _ _
      (ReachNC.add ("NodeA") 2 ReachNC.init rfl) (by decide)
      ("NodeA") 2 (by decide)⟩

/-- C5 counterexample: on the reachable stale state `staleS` (add `"A"`
weight 2, re-add weight 1, remove — leaving one position bound to
`"A"` while the weight table is empty), the node `"A"` is not present
and the two replica keys the scenario computes hash without collision,
yet `addNode("A", 2); removeNode("A")` deletes the stale position:
`getNode` changes from `some "A"` to the empty sentinel. -/
theorem claim_C5_counterexample :
    Reachable hfStale 1 staleS ∧
      ("A" : String) ∉ staleS.weights.map Prod.fst ∧
      hfStale ("A:0") ≠ hfStale ("A:1") ∧
      getNode hfStale staleS ("k") = some ("A") ∧
      getNode hfStale
        (removeNode hfStale (addNode hfStale staleS ("A") 2) ("A"))
        ("k") = none :=
  ⟨Reachable.remove ("A") (Reachable.add ("A") 1
      (Reachable.add ("A") 2 Reachable.init)),
    by decide, by decide, by decide, by decide⟩

/-- C5 amended: adding an absent node `X` and immediately removing it
leaves every `getNode` and `getNodes` lookup with the same result as
before, provided `X`'s replica hashes collide neither with each other
nor with any position already stored in `S` (ruling out stale positions
keyed by `X`'s own replica hashes, which re-add misuse can leave
behind). -/
theorem claim_C5_add_remove_consistency (hashFn : String → Nat)
    (replicas : Int) (s : CHState) (X : String) (w : Int)
    (hr : Reachable hashFn replicas s)
    (hX : X ∉ s.weights.map Prod.fst)
    (hfresh : ∀ i, i < (s.numberOfReplicas * effWeight (some w)).toNat →
      hashFn (rk X i) ∉ s.sortedKeys ∧
        hashFn (rk X i) ∉ s.ring.map Prod.fst)
    (hinj : ∀ i j, i < (s.numberOfReplicas * effWeight (some w)).toNat →
      j < (s.numberOfReplicas * effWeight (some w)).toNat →
      hashFn (rk X i) = hashFn (rk X j) → i = j) :
    (∀ key, getNode hashFn (removeNode hashFn (addNode hashFn s X w) X)
        key = getNode hashFn s key) ∧
    (∀ key count fuel,
      getNodes hashFn (removeNode hashFn (addNode hashFn s X w) X)
        key count fuel = getNodes hashFn s key count fuel) := by
  have hst := add_remove_cancel hr hX hfresh hinj
  rw [hst]
  exact ⟨fun _ => rfl, fun _ _ _ => rfl⟩

/-- Witness for C5: add and remove `"B"` around the one-node ring. -/
theorem claim_C5_witness :
    ("B" : String) ∉ sA1.weights.map Prod.fst ∧
    (∀ key, getNode hfC3
        (removeNode hfC3 (addNode hfC3 sA1 ("B") 1) ("B")) key =
      getNode hfC3 sA1 key) ∧
    (∀ key count fuel, getNodes hfC3
        (removeNode hfC3 (addNode hfC3 sA1 ("B") 1) ("B")) key count fuel =
      getNodes hfC3 sA1 key count fuel) :=
  ⟨by decide,
    (claim_C5_add_remove_consistency hfC3 1 sA1 ("B") 1
        (Reachable.add ("A") 1 Reachable.init) (by decide)
        (by
          intro i hi
          have hb : (sA1.numberOfReplicas * effWeight (some 1)).toNat = 1 :=
            by decide
          rw [hb] at hi
          have h0 : i = 0 := by omega
          subst h0
          exact ⟨by decide, by decide⟩)
        (by
          intro i j hi hj _
          have hb : (sA1.numberOfReplicas * effWeight (some 1)).toNat = 1 :=
            by decide
          rw [hb] at hi hj
          omega)).1,
    (claim_C5_add_remove_consistency hfC3 1 sA1 ("B") 1
        (Reachable.add ("A") 1 Reachable.init) (by decide)
        (by
          intro i hi
          have hb : (sA1.numberOfReplicas * effWeight (some 1)).toNat = 1 :=
            by decide
          rw [hb] at hi
          have h0 : i = 0 := by omega
          subst h0
          exact ⟨by decide, by decide⟩)
        (by
          intro i j hi hj _
          have hb : (sA1.numberOfReplicas * effWeight (some 1)).toNat = 1 :=
            by decide
          rw [hb] at hi hj
          omega)).2⟩

/-- C8 counterexample: under the constant hash, removing the
never-added node `"B"` deletes node `"A"`'s position (the fallback
replica key `B:0` hashes onto the stored position 0), so the state
changes. -/
theorem claim_C8_counterexample :
    msGet s8.weights ("B") = none ∧ removeNode hfZero s8 ("B") ≠ s8 ∧
      (removeNode hfZero s8 ("B")).sortedKeys = [] ∧
      s8.sortedKeys = [0] :=
  ⟨by decide, by decide, by decide, by decide⟩

/-- C8 amended: removing a node absent from the weight table is a no-op
(ring map, sorted key list and weight table unchanged) provided its
fallback replica keys hash to values not stored in the ring. -/
theorem claim_C8_amended_remove_noop (hashFn : String → Nat)
    (s : CHState) (X : String) (hX : X ∉ s.weights.map Prod.fst)
    (hfresh : ∀ i, i < (s.numberOfReplicas * 1).toNat →
      hashFn (rk X i) ∉ s.sortedKeys ∧
        hashFn (rk X i) ∉ s.ring.map Prod.fst) :
    removeNode hashFn s X = s := by
  have hw : msGet s.weights X = none := msGet_eq_none.mpr hX
  have hcnt : (s.numberOfReplicas * effWeight (msGet s.weights X)).toNat
      = (s.numberOfReplicas * 1).toNat := by
    rw [hw]
    rfl
  apply CHState.ext_fields
  · rw [removeNode_ring, hcnt]
    apply foldl_msDelete_not_mem
    intro h hh
    rcases mem_replicaHashes.mp hh with ⟨i, hi, hhash⟩
    exact hhash ▸ (hfresh i hi).2
  · rw [removeNode_sortedKeys, hcnt, foldl_filter_ne]
    apply List.filter_eq_self.mpr
    intro a ha
    simp only [decide_eq_true_eq]
    intro hmem
    rcases mem_replicaHashes.mp hmem with ⟨i, hi, hh⟩
    exact (hfresh i hi).1 (hh ▸ ha)
  · rw [removeNode_replicas]
  · rw [removeNode_weights]
    exact msDelete_not_mem hX

/-- Witness for the amended C8: removing the never-added `"B"` from the
one-node ring whose positions `B:0` does not hit. -/
theorem claim_C8_witness :
    ("B" : String) ∉ sA1.weights.map Prod.fst ∧
      removeNode hfC3 sA1 ("B") = sA1 :=
  ⟨by decide,
    claim_C8_amended_remove_noop hfC3 sA1 ("B") (by decide)
      (by
        intro i hi
        have hb : (sA1.numberOfReplicas * 1).toNat = 1 := by decide
        rw [hb] at hi
        have h0 : i = 0 := by omega
        subst h0
        exact ⟨by decide, by decide⟩)⟩

/-- C9: with a non-negative replica count, `addNode` with weight `≤ 0`
records the node and weight but inserts no positions, so lookups can
never return that node (when it had no stale positions). -/
theorem claim_C9_nonpositive_weight (hashFn : String → Nat)
    (s : CHState) (node : String) (w : Int)
    (hrep : 0 ≤ s.numberOfReplicas) (hw : w ≤ 0) :
    msGet (addNode hashFn s node w).weights node = some w ∧
    (addNode hashFn s node w).ring = s.ring ∧
    (addNode hashFn s node w).sortedKeys.length = s.sortedKeys.length ∧
    ((∀ p ∈ s.ring, p.2 ≠ node) →
      (∀ key, getNode hashFn (addNode hashFn s node w) key ≠ some node) ∧
      (∀ key count fuel r,
        getNodes hashFn (addNode hashFn s node w) key count fuel =
          some r → node ∉ r)) := by
  have hmul : s.numberOfReplicas * w ≤ 0 :=
    mul_nonpos_iff.mpr (Or.inl ⟨hrep, hw⟩)
  have hcnt : (s.numberOfReplicas * w).toNat = 0 :=
    Int.toNat_of_nonpos hmul
  have hring : (addNode hashFn s node w).ring = s.ring := by
    rw [addNode_ring, hcnt]
    rfl
  refine ⟨by rw [addNode_weights, msGet_msSet_self], hring,
    by rw [addNode_sk_length, hcnt, Nat.add_zero], ?_⟩
  intro hno
  constructor
  · intro key hkey
    rcases getNode_some_mem hkey with ⟨pos, hpos⟩
    rw [hring] at hpos
    exact hno (pos, node) hpos rfl
  · intro key count fuel r hrun hmem
    obtain ⟨_, hvals, _⟩ := getNodes_inv hrun
    rcases hvals node hmem with ⟨pos, hpos⟩
    rw [hring] at hpos
    exact hno (pos, node) hpos rfl

/-- Witness for C9: weight −2 for `"B"` on the one-node ring. -/
theorem claim_C9_witness :
    (0 : Int) ≤ sA1.numberOfReplicas ∧ ((-2 : Int) ≤ 0) ∧
      (msGet (addNode hfC3 sA1 ("B") (-2)).weights ("B") = some (-2) ∧
      (addNode hfC3 sA1 ("B") (-2)).ring = sA1.ring ∧
      (addNode hfC3 sA1 ("B") (-2)).sortedKeys.length =
        sA1.sortedKeys.length ∧
      ((∀ p ∈ sA1.ring, p.2 ≠ "B") →
        (∀ key, getNode hfC3 (addNode hfC3 sA1 ("B") (-2)) key ≠
          some ("B")) ∧
        (∀ key count fuel r,
          getNodes hfC3 (addNode hfC3 sA1 ("B") (-2)) key count fuel =
            some r → ("B" : String) ∉ r))) :=
  ⟨by decide, by decide,
    claim_C9_nonpositive_weight hfC3 sA1 ("B") (-2) (by decide)
      (by decide)⟩

end ConsistentHashing
